import Mathlib

/-!
Shallow embedding of the coprocessor DAG executor row model
(`components/cop_dag/src/executor/mod.rs`): the `ExprColumnRefVisitor`,
the `OriginCols` / `AggCols` / `Row` data model and their binary encoders,
together with theorems checking the specification's claims about them.

Machine integers are modelled as `Int` / `Nat` with explicit reductions
modulo `2 ^ 64` where wrapping matters; byte strings are `List Nat`;
fallible Rust functions return `Except Error _`; functions that can panic
(unchecked slice indexing) return `Option (Except Error _)`, where `none`
is the panic outcome.
-/

namespace CopDag

/-- Field type flag bit for NOT_NULL (`FieldTypeFlag::NOT_NULL`). -/
def FieldTypeFlag.notNull : Nat := 1

/-- Test whether a flag bitmask contains a given flag (`flag().contains(f)`). -/
def flagContains (flag f : Nat) : Bool := flag &&& f != 0

/-- Modelled from the spec: a Datum is "a tagged value: null, signed 64-bit
integer, unsigned 64-bit integer, ..., bytes"; the datum type itself lives in
`codec::datum`, outside the embedded file. Only the variants the executor
claims exercise are modelled. -/
inductive Datum where
  | null
  | i64 (v : Int)
  | u64 (v : Nat)
  | bytes (bs : List Nat)
deriving DecidableEq, Repr

/-- Little-endian 8-byte rendering of a natural number (low byte first). -/
def le8 (n : Nat) : List Nat :=
  [n % 256, n / 256 % 256, n / 256 ^ 2 % 256, n / 256 ^ 3 % 256,
   n / 256 ^ 4 % 256, n / 256 ^ 5 % 256, n / 256 ^ 6 % 256, n / 256 ^ 7 % 256]

/-- Value of a little-endian byte string (low byte first). -/
def leVal (bs : List Nat) : Nat := bs.foldr (fun b acc => b + 256 * acc) 0

/-- Reinterpret a 64-bit unsigned value as a signed two's-complement i64. -/
def toSigned64 (u : Nat) : Int :=
  let v : Nat := u % 2 ^ 64
  if v < 2 ^ 63 then (v : Int) else (v : Int) - 2 ^ 64

/-- The Rust `as usize` cast of an i64 value (two's-complement wrap). -/
def intToUsize (x : Int) : Nat := (x % (2 ^ 64 : Int)).toNat

/-- Modelled from the spec: the datum codec (`codec::datum`) is an external
collaborator, "assumed available as pure functions". One datum's wire form:
a tag byte followed by the payload; the boolean flag (the spec's
`with_unsigned_flag`, always off at the executor's call sites) selects a
distinct tag range. -/
def encodeDatum (flag : Bool) (d : Datum) : List Nat :=
  let tag : Nat := if flag then 10 else 0
  match d with
  | .null => [tag]
  | .i64 v => (tag + 1) :: le8 ((v % (2 ^ 64 : Int)).toNat)
  | .u64 v => (tag + 2) :: le8 v
  | .bytes bs => (tag + 3) :: (le8 bs.length ++ bs)

/-- Modelled from the spec: `DatumEncoder::encode(values, flag)` concatenates
the wire forms of the datums. -/
def encode (values : List Datum) (flag : Bool) : List Nat :=
  values.foldr (fun d acc => encodeDatum flag d ++ acc) []

/-- Modelled from the spec: `datum::encode_value(values)` is `encode` with the
flag off. -/
def encode_value (values : List Datum) : List Nat := encode values false

/-- Modelled from the spec: decode one datum (flag-off form) from the front of
a byte string, returning it with the remaining bytes. -/
def decodeDatum (bs : List Nat) : Option (Datum × List Nat) :=
  match bs with
  | 0 :: rest => some (.null, rest)
  | 1 :: rest =>
    if 8 ≤ rest.length then some (.i64 (toSigned64 (leVal (rest.take 8))), rest.drop 8)
    else none
  | 2 :: rest =>
    if 8 ≤ rest.length then some (.u64 (leVal (rest.take 8)), rest.drop 8)
    else none
  | 3 :: rest =>
    if 8 ≤ rest.length then
      let n := leVal (rest.take 8)
      let body := rest.drop 8
      if n ≤ body.length then some (.bytes (body.take n), body.drop n) else none
    else none
  | _ => none

/-- Fuel-indexed repeated datum decoding (the fuel bounds the number of
datums, which never exceeds the byte count). -/
def decodeValuesGo : Nat → List Nat → Option (List Datum)
  | _, [] => some []
  | 0, _ :: _ => none
  | fuel + 1, b :: bs =>
    match decodeDatum (b :: bs) with
    | none => none
    | some (d, rest) => (decodeValuesGo fuel rest).map (fun ds => d :: ds)

/-- Modelled from the spec: decode a whole byte string as a sequence of
datums. -/
def decode_values (bs : List Nat) : Option (List Datum) := decodeValuesGo bs.length bs

/-- Well-formed datums: machine-representable payloads (the values the real
codec can produce). -/
def datumWF : Datum → Bool
  | .null => true
  | .i64 v => decide (-(2 ^ 63 : Int) ≤ v ∧ v < 2 ^ 63)
  | .u64 v => decide (v < 2 ^ 64)
  | .bytes bs => decide (bs.length < 2 ^ 64)

/-- Column descriptor (`tipb::schema::ColumnInfo`): identifier, PK-handle
marker, type-flag bitmask, optional default-value byte string. -/
structure ColumnInfo where
  column_id : Int
  pk_handle : Bool
  flag : Nat
  default_val : Option (List Nat)
deriving DecidableEq, Repr

instance : Inhabited ColumnInfo := ⟨⟨0, false, 0, none⟩⟩

/-- Decoded byte body of a stored row (`RowColsDict`): a map column-id →
stored bytes, modelled as an association list. -/
structure RowColsDict where
  entries : List (Int × List Nat)
deriving DecidableEq, Repr

/-- Lookup of a column id in the dict (`RowColsDict::get`). -/
def RowColsDict.get (d : RowColsDict) (id : Int) : Option (List Nat) :=
  (d.entries.find? (fun e => e.1 == id)).map (fun e => e.2)

/-- Error taxonomy of the embedded operations. -/
inductive Error where
  | missingColumn (column_id : Int) (handle : Int)
  | offsetOverflow (offset : Nat) (cols_len : Nat)
  | codecError
deriving DecidableEq, Repr

/-- Modelled from the spec: evaluation context (`EvalContext`); it carries
session parameters, none of which affect the modelled codec. -/
def EvalContext := Unit

/-- Modelled from the spec: `util::get_pk(col, handle)` produces the handle
datum for the PK-handle column ("encode `datum::encode_value(&[handle])`";
the handle is an `i64`). -/
def get_pk (_col : ColumnInfo) (h : Int) : Datum := .i64 h

/-- Modelled from the spec: `table::decode_col_value` is the "type-coercing
column decoder" of the external table codec; it decodes the leading datum of
the byte string. -/
def decode_col_value (bs : List Nat) (_ctx : EvalContext) (_col : ColumnInfo) :
    Except Error Datum :=
  match decodeDatum bs with
  | some (d, _) => .ok d
  | none => .error .codecError

/-- Scanned row (`OriginCols`): handle, decoded byte body, shared schema. -/
structure OriginCols where
  handle : Int
  data : RowColsDict
  cols : List ColumnInfo
deriving DecidableEq, Repr

/-- Aggregated row (`AggCols`): suffix bytes and aggregate value vector. -/
structure AggCols where
  suffix : List Nat
  value : List Datum
deriving DecidableEq, Repr

/-- Binary encoding of an aggregated row (`AggCols::get_binary`). -/
def AggCols.get_binary (a : AggCols) : Except Error (List Nat) :=
  let v := encode a.value false
  let v := if a.suffix.isEmpty then v else v ++ a.suffix
  .ok v

/-- Tagged row union (`Row`). -/
inductive Row where
  | origin (row : OriginCols)
  | agg (row : AggCols)
deriving DecidableEq, Repr

/-- Per-column loop body and recursion of `OriginCols::get_binary_cols`. -/
def getBinaryColsGo (handle : Int) (data : RowColsDict) :
    List ColumnInfo → Except Error (List (List Nat))
  | [] => .ok []
  | col :: rest =>
    if col.pk_handle then
      match getBinaryColsGo handle data rest with
      | .error e => .error e
      | .ok r => .ok (encode_value [get_pk col handle] :: r)
    else
      let step : Except Error (List Nat) :=
        match data.get col.column_id with
        | none =>
          match col.default_val with
          | some dv => .ok dv
          | none =>
            if flagContains col.flag FieldTypeFlag.notNull then
              .error (.missingColumn col.column_id handle)
            else .ok (encode_value [.null])
        | some bs => .ok bs
      match step with
      | .error e => .error e
      | .ok value =>
        match getBinaryColsGo handle data rest with
        | .error e => .error e
        | .ok r => .ok (value :: r)

/-- Binary of each column in schema order (`OriginCols::get_binary_cols`). -/
def OriginCols.get_binary_cols (row : OriginCols) : Except Error (List (List Nat)) :=
  getBinaryColsGo row.handle row.data row.cols

/-- Per-offset loop body and recursion of `OriginCols::get_binary`; `none`
models the panic of the unchecked `self.cols[*offset as usize]` indexing. -/
def getBinaryGo (handle : Int) (data : RowColsDict) (cols : List ColumnInfo) :
    List Nat → Option (Except Error (List Nat))
  | [] => some (.ok [])
  | o :: rest =>
    match cols.get? o with
    | none => none
    | some col =>
      let step : Except Error (List Nat) :=
        match data.get col.column_id with
        | some value => .ok value
        | none =>
          if col.pk_handle then .ok (encode [get_pk col handle] false)
          else
            match col.default_val with
            | some dv => .ok dv
            | none =>
              if flagContains col.flag FieldTypeFlag.notNull then
                .error (.missingColumn col.column_id handle)
              else .ok (encode [.null] false)
      match step with
      | .error e => some (.error e)
      | .ok value =>
        match getBinaryGo handle data cols rest with
        | none => none
        | some (.error e) => some (.error e)
        | some (.ok tail) => some (.ok (value ++ tail))

/-- Concatenated binary of the requested offsets (`OriginCols::get_binary`). -/
def OriginCols.get_binary (row : OriginCols) (output_offsets : List Nat) :
    Option (Except Error (List Nat)) :=
  getBinaryGo row.handle row.data row.cols output_offsets

/-- Binary of a row (`Row::get_binary`): origin rows use the offsets,
aggregated rows ignore them. -/
def Row.get_binary (r : Row) (output_offsets : List Nat) :
    Option (Except Error (List Nat)) :=
  match r with
  | .origin row => row.get_binary output_offsets
  | .agg row => some (row.get_binary)

/-- Per-offset loop body and recursion of
`OriginCols::inflate_cols_with_offsets`; `none` models the panic of the
unchecked `self.cols[*offset]` indexing. -/
def inflateGo (handle : Int) (data : RowColsDict) (cols : List ColumnInfo)
    (ctx : EvalContext) : List Nat → List Datum → Option (Except Error (List Datum))
  | [], res => some (.ok res)
  | o :: rest, res =>
    match cols.get? o with
    | none => none
    | some col =>
      if col.pk_handle then
        inflateGo handle data cols ctx rest (res.set o (get_pk col handle))
      else
        let step : Except Error Datum :=
          match data.get col.column_id with
          | none =>
            match col.default_val with
            | some dv => decode_col_value dv ctx col
            | none =>
              if flagContains col.flag FieldTypeFlag.notNull then
                .error (.missingColumn col.column_id handle)
              else .ok .null
          | some bs => decode_col_value bs ctx col
        match step with
        | .error e => some (.error e)
        | .ok value => inflateGo handle data cols ctx rest (res.set o value)

/-- Decode the listed columns into a null-prefilled vector of schema length
(`OriginCols::inflate_cols_with_offsets`). -/
def OriginCols.inflate_cols_with_offsets (row : OriginCols) (ctx : EvalContext)
    (offsets : List Nat) : Option (Except Error (List Datum)) :=
  inflateGo row.handle row.data row.cols ctx offsets
    (List.replicate row.cols.length .null)

/-- Expression node kind (`tipb::expression::ExprType`), reduced to the
distinction the visitor makes. -/
inductive ExprType where
  | columnRef
  | scalarFunc
  | constant
deriving DecidableEq, Repr

/-- Push-down expression tree (`tipb::expression::Expr`): a kind, a payload
byte string and a list of children. -/
inductive Expr where
  | node (tp : ExprType) (val : List Nat) (children : List Expr)

/-- Modelled from the spec: `number::decode_i64` reads the payload as "a
little-endian signed 64-bit integer"; it fails on fewer than 8 bytes. -/
def decode_i64 (bs : List Nat) : Except Error Int :=
  if 8 ≤ bs.length then .ok (toSigned64 (leVal (bs.take 8))) else .error .codecError

/-- Visitor state (`ExprColumnRefVisitor`): collected offsets and the
declared schema length. The hash set is modelled as a duplicate-free list. -/
structure ExprColumnRefVisitor where
  cols_offset : List Nat
  cols_len : Nat
deriving DecidableEq, Repr

/-- Hash-set insertion on the duplicate-free list model. -/
def insertOffset (s : List Nat) (o : Nat) : List Nat := if o ∈ s then s else s ++ [o]

/-- Fresh visitor (`ExprColumnRefVisitor::new`). -/
def ExprColumnRefVisitor.new (cols_len : Nat) : ExprColumnRefVisitor := ⟨[], cols_len⟩

mutual

/-- Tree walk of `ExprColumnRefVisitor::visit`: a ColumnRef leaf decodes its
payload and records the offset after the range check; any other node visits
its children. -/
def ExprColumnRefVisitor.visit (v : ExprColumnRefVisitor) :
    Expr → Except Error ExprColumnRefVisitor
  | .node tp val children =>
    if tp = .columnRef then
      match decode_i64 val with
      | .error e => .error e
      | .ok x =>
        let offset := intToUsize x
        if v.cols_len ≤ offset then .error (.offsetOverflow offset v.cols_len)
        else .ok { v with cols_offset := insertOffset v.cols_offset offset }
    else ExprColumnRefVisitor.visitList v children

/-- The `for sub_expr in expr.get_children()` loop inside `visit`. -/
def ExprColumnRefVisitor.visitList (v : ExprColumnRefVisitor) :
    List Expr → Except Error ExprColumnRefVisitor
  | [] => .ok v
  | e :: rest =>
    match ExprColumnRefVisitor.visit v e with
    | .error err => .error err
    | .ok v2 => ExprColumnRefVisitor.visitList v2 rest

end

/-- Visit every expression of a forest (`ExprColumnRefVisitor::batch_visit`). -/
def ExprColumnRefVisitor.batch_visit (v : ExprColumnRefVisitor) :
    List Expr → Except Error ExprColumnRefVisitor
  | [] => .ok v
  | e :: rest =>
    match ExprColumnRefVisitor.visit v e with
    | .error err => .error err
    | .ok v2 => ExprColumnRefVisitor.batch_visit v2 rest

/-- Collected offsets (`ExprColumnRefVisitor::column_offsets`). -/
def ExprColumnRefVisitor.column_offsets (v : ExprColumnRefVisitor) : List Nat :=
  v.cols_offset

mutual

/-- Payloads of the ColumnRef leaves the visitor reaches, in visit order
(children of a ColumnRef node are not walked, mirroring `visit`). -/
def columnRefPayloads : Expr → List (List Nat)
  | .node tp val children =>
    if tp = .columnRef then [val] else columnRefPayloadsList children

/-- Payloads of the ColumnRef leaves of a forest, in visit order. -/
def columnRefPayloadsList : List Expr → List (List Nat)
  | [] => []
  | e :: rest => columnRefPayloads e ++ columnRefPayloadsList rest

end

/-- Signed i64 value a well-formed ColumnRef payload decodes to. -/
def payloadInt (p : List Nat) : Int := toSigned64 (leVal (p.take 8))

/-- Offset (after the `as usize` cast) a ColumnRef payload decodes to. -/
def payloadOffset (p : List Nat) : Nat := intToUsize (payloadInt p)

/-- Offsets of the ColumnRef leaves of an expression, in visit order. -/
def refOffsets (e : Expr) : List Nat := (columnRefPayloads e).map payloadOffset

/-- Offsets of the ColumnRef leaves of a forest, in visit order. -/
def refOffsetsList (es : List Expr) : List Nat :=
  (columnRefPayloadsList es).map payloadOffset

/-- Wire form of one column following the spec's `get_binary_cols` rules,
in the spec's order: PK handle first, then stored bytes, then default,
then the NOT_NULL failure, then encoded null. -/
def colWireSpec (handle : Int) (data : RowColsDict) (col : ColumnInfo) :
    Except Error (List Nat) :=
  if col.pk_handle then .ok (encode_value [get_pk col handle])
  else
    match data.get col.column_id with
    | some bs => .ok bs
    | none =>
      match col.default_val with
      | some dv => .ok dv
      | none =>
        if flagContains col.flag FieldTypeFlag.notNull then
          .error (.missingColumn col.column_id handle)
        else .ok (encode_value [.null])

/-- Wire form of one requested column as `get_binary` implements it: stored
bytes take precedence even for the PK-handle column, then the handle datum,
then default, then the NOT_NULL failure, then encoded null. -/
def offsetWireSpec (handle : Int) (data : RowColsDict) (col : ColumnInfo) :
    Except Error (List Nat) :=
  match data.get col.column_id with
  | some bs => .ok bs
  | none =>
    if col.pk_handle then .ok (encode [get_pk col handle] false)
    else
      match col.default_val with
      | some dv => .ok dv
      | none =>
        if flagContains col.flag FieldTypeFlag.notNull then
          .error (.missingColumn col.column_id handle)
        else .ok (encode [.null] false)

/-- Missing-column condition: not the PK handle, absent from the dict, no
default value, flagged NOT_NULL. -/
def missingCond (data : RowColsDict) (col : ColumnInfo) : Bool :=
  !col.pk_handle && (data.get col.column_id).isNone && col.default_val.isNone &&
    flagContains col.flag FieldTypeFlag.notNull

/-- Decoded (inflated) value of one listed column following the spec rules:
the handle datum for the PK handle, otherwise stored or default bytes through
the type-coercing column decoder, the NOT_NULL failure, or null. -/
def inflateSpecVal (handle : Int) (data : RowColsDict) (ctx : EvalContext)
    (col : ColumnInfo) : Except Error Datum :=
  if col.pk_handle then .ok (get_pk col handle)
  else
    match data.get col.column_id with
    | some bs => decode_col_value bs ctx col
    | none =>
      match col.default_val with
      | some dv => decode_col_value dv ctx col
      | none =>
        if flagContains col.flag FieldTypeFlag.notNull then
          .error (.missingColumn col.column_id handle)
        else .ok .null

/-- Concrete column used to refute the C1 precedence rule: a PK-handle
column whose id also has stored bytes in the row dict. -/
def cexCol : ColumnInfo := ⟨1, true, 0, none⟩

/-- Concrete row used to refute the C1 precedence rule. -/
def cexRow : OriginCols := ⟨5, ⟨[(1, [9, 9])]⟩, [cexCol]⟩

/-- Concrete schema used to witness the round-trip claim: a PK-handle column
and a plain stored column. -/
def c8cols : List ColumnInfo := [⟨1, true, 0, none⟩, ⟨2, false, 0, none⟩]

/-- Concrete row used to witness the round-trip claim: the PK column is
absent from the dict, the second column stores an encoded datum. -/
def c8row : OriginCols := ⟨5, ⟨[(2, encode_value [.i64 9])]⟩, c8cols⟩

/-- Datums of the witness row: the handle datum and the stored value. -/
def c8datums : List Datum := [.i64 5, .i64 9]

/-- Datum the round-tripped row reproduces at position `i`: the row's own
datum when the column is stored (or is the PK handle), otherwise the decoded
default value, otherwise null. -/
def substAt (row : OriginCols) (datums : List Datum) (i : Nat) : Datum :=
  let col := row.cols.getD i default
  match row.data.get col.column_id with
  | some _ => datums.getD i .null
  | none =>
    if col.pk_handle then datums.getD i .null
    else
      match col.default_val with
      | some dv =>
        match decodeDatum dv with
        | some p => p.1
        | none => .null
      | none => .null

end CopDag

deriving instance DecidableEq for Except

namespace CopDag

theorem le8_length (n : Nat) : (le8 n).length = 8 := rfl

theorem leVal_le8 (n : Nat) : leVal (le8 n) = n % 2 ^ 64 := by
  simp [le8, leVal]
  omega

theorem toSigned64_emod (v : Int) (h1 : -(2 ^ 63) ≤ v) (h2 : v < 2 ^ 63) :
    toSigned64 ((v % (2 ^ 64 : Int)).toNat) = v := by
  simp only [toSigned64]
  split <;> omega

theorem toSigned64_range (u : Nat) :
    -(2 ^ 63) ≤ toSigned64 u ∧ toSigned64 u < 2 ^ 63 := by
  simp only [toSigned64]
  split <;> omega

theorem intToUsize_lt_iff (x : Int) (len : Nat) (hlen : len ≤ 2 ^ 63)
    (hx1 : -(2 ^ 63) ≤ x) (hx2 : x < 2 ^ 63) :
    intToUsize x < len ↔ 0 ≤ x ∧ x < len := by
  simp only [intToUsize]
  omega

theorem encodeDatum_ne_nil (flag : Bool) (d : Datum) : encodeDatum flag d ≠ [] := by
  cases d <;> simp [encodeDatum]

theorem encode_nil (flag : Bool) : encode [] flag = [] := rfl

theorem encode_cons (flag : Bool) (d : Datum) (ds : List Datum) :
    encode (d :: ds) flag = encodeDatum flag d ++ encode ds flag := rfl

theorem decodeDatum_encode (d : Datum) (rest : List Nat) (h : datumWF d = true) :
    decodeDatum (encodeDatum false d ++ rest) = some (d, rest) := by
  cases d with
  | null => simp [encodeDatum, decodeDatum]
  | i64 v =>
    simp only [datumWF, decide_eq_true_eq] at h
    have hshape : encodeDatum false (.i64 v) ++ rest =
        1 :: (le8 ((v % (2 ^ 64 : Int)).toNat) ++ rest) := by
      simp [encodeDatum]
    rw [hshape]
    have h8 : 8 ≤ (le8 ((v % (2 ^ 64 : Int)).toNat) ++ rest).length := by
      simp [le8_length]
    simp only [decodeDatum, h8, if_pos]
    rw [show (8 : Nat) = (le8 ((v % (2 ^ 64 : Int)).toNat)).length from rfl]
    rw [List.take_left, List.drop_left]
    rw [leVal_le8]
    have hsm : (v % (2 ^ 64 : Int)).toNat % 2 ^ 64 = (v % (2 ^ 64 : Int)).toNat := by omega
    rw [hsm, toSigned64_emod v h.1 h.2]
  | u64 v =>
    simp only [datumWF, decide_eq_true_eq] at h
    have hshape : encodeDatum false (.u64 v) ++ rest = 2 :: (le8 v ++ rest) := by
      simp [encodeDatum]
    rw [hshape]
    have h8 : 8 ≤ (le8 v ++ rest).length := by simp [le8_length]
    simp only [decodeDatum, h8, if_pos]
    rw [show (8 : Nat) = (le8 v).length from rfl]
    rw [List.take_left, List.drop_left]
    rw [leVal_le8, Nat.mod_eq_of_lt h]
  | bytes bs =>
    simp only [datumWF, decide_eq_true_eq] at h
    have hshape : encodeDatum false (.bytes bs) ++ rest =
        3 :: (le8 bs.length ++ (bs ++ rest)) := by
      simp [encodeDatum]
    rw [hshape]
    have h8 : 8 ≤ (le8 bs.length ++ (bs ++ rest)).length := by simp [le8_length]
    simp only [decodeDatum, h8, if_pos]
    rw [show (8 : Nat) = (le8 bs.length).length from rfl]
    rw [List.take_left, List.drop_left]
    rw [leVal_le8, Nat.mod_eq_of_lt h]
    have hble : bs.length ≤ (bs ++ rest).length := by simp
    simp only [hble, if_pos]
    rw [List.take_left, List.drop_left]

theorem decodeValuesGo_encode (ds : List Datum) :
    ∀ fuel : Nat, (∀ d ∈ ds, datumWF d = true) → ds.length ≤ fuel →
      decodeValuesGo fuel (encode ds false) = some ds := by
  induction ds with
  | nil =>
    intro fuel _ _
    cases fuel <;> simp [encode, decodeValuesGo]
  | cons d rest ih =>
    intro fuel hwf hlen
    have hd : datumWF d = true := hwf d (by simp)
    cases fuel with
    | zero => simp at hlen
    | succ f =>
      rcases he : encodeDatum false d with _ | ⟨b, bs⟩
      · exact absurd he (encodeDatum_ne_nil false d)
      · have hshape : encode (d :: rest) false = b :: (bs ++ encode rest false) := by
          rw [encode_cons, he]
          simp
        rw [hshape]
        have hdec : decodeDatum (b :: (bs ++ encode rest false)) = some (d, encode rest false) := by
          have hde := decodeDatum_encode d (encode rest false) hd
          rw [he] at hde
          simpa using hde
        simp only [decodeValuesGo, hdec]
        rw [ih f (fun x hx => hwf x (by simp [hx])) (by simpa using hlen)]
        rfl

theorem length_le_encode_length (ds : List Datum) (flag : Bool) :
    ds.length ≤ (encode ds flag).length := by
  induction ds with
  | nil => simp [encode_nil]
  | cons d rest ih =>
    rw [encode_cons]
    have h1 : 1 ≤ (encodeDatum flag d).length := by
      rcases he : encodeDatum flag d with _ | ⟨b, bs⟩
      · exact absurd he (encodeDatum_ne_nil flag d)
      · simp
    simp only [List.length_append, List.length_cons]
    omega

theorem decode_values_encode (ds : List Datum) (hwf : ∀ d ∈ ds, datumWF d = true) :
    decode_values (encode ds false) = some ds := by
  unfold decode_values
  exact decodeValuesGo_encode ds _ hwf (length_le_encode_length ds false)

theorem mem_insertOffset (s : List Nat) (o a : Nat) :
    a ∈ insertOffset s o ↔ a ∈ s ∨ a = o := by
  simp only [insertOffset]
  by_cases h : o ∈ s
  · simp only [h, if_pos]
    constructor
    · exact Or.inl
    · rintro (ha | rfl)
      · exact ha
      · exact h
  · simp [h, List.mem_append]

theorem nodup_insertOffset (s : List Nat) (o : Nat) (h : s.Nodup) :
    (insertOffset s o).Nodup := by
  simp only [insertOffset]
  by_cases ho : o ∈ s
  · simp [ho, h]
  · simp [ho, h, List.nodup_append]

theorem mem_foldl_insertOffset (l : List Nat) :
    ∀ (s : List Nat) (a : Nat), a ∈ List.foldl insertOffset s l ↔ a ∈ s ∨ a ∈ l := by
  induction l with
  | nil => simp
  | cons o rest ih =>
    intro s a
    simp only [List.foldl_cons]
    rw [ih, mem_insertOffset]
    simp [or_assoc]

theorem nodup_foldl_insertOffset (l : List Nat) :
    ∀ s : List Nat, s.Nodup → (List.foldl insertOffset s l).Nodup := by
  induction l with
  | nil => simp
  | cons o rest ih =>
    intro s hs
    exact ih _ (nodup_insertOffset s o hs)



theorem decode_i64_ok_iff (p : List Nat) (x : Int) :
    decode_i64 p = .ok x ↔ 8 ≤ p.length ∧ x = payloadInt p := by
  simp only [decode_i64, payloadInt]
  split <;> rename_i h <;> simp [h]
  exact eq_comm

theorem decode_i64_of_len (p : List Nat) (h : 8 ≤ p.length) :
    decode_i64 p = .ok (payloadInt p) := by
  simp [decode_i64, payloadInt, h]

mutual

theorem visit_ok_spec (e : Expr) : ∀ (v v' : ExprColumnRefVisitor),
    ExprColumnRefVisitor.visit v e = .ok v' →
    v' = ⟨List.foldl insertOffset v.cols_offset (refOffsets e), v.cols_len⟩ ∧
    ∀ p ∈ columnRefPayloads e, ∃ x, decode_i64 p = .ok x ∧ intToUsize x < v.cols_len := by
  intro v v' h
  cases e with
  | node tp val children =>
    by_cases htp : tp = .columnRef
    · subst htp
      simp only [ExprColumnRefVisitor.visit, if_pos] at h
      cases hdec : decode_i64 val with
      | error err => rw [hdec] at h; exact absurd h (by simp)
      | ok x =>
        rw [hdec] at h
        simp only at h
        by_cases hlt : v.cols_len ≤ intToUsize x
        · rw [if_pos hlt] at h; exact absurd h (by simp)
        · rw [if_neg hlt] at h
          simp only [Except.ok.injEq] at h
          subst h
          constructor
          · have hx : x = payloadInt val := ((decode_i64_ok_iff val x).mp hdec).2
            simp [refOffsets, columnRefPayloads, payloadOffset, hx]
          · intro p hp
            simp only [columnRefPayloads, if_pos, List.mem_singleton] at hp
            subst hp
            exact ⟨x, hdec, by omega⟩
    · rw [show ExprColumnRefVisitor.visit v (Expr.node tp val children) =
          ExprColumnRefVisitor.visitList v children by
        simp [ExprColumnRefVisitor.visit, htp]] at h
      obtain ⟨hs, hg⟩ := visitList_ok_spec children v v' h
      refine ⟨?_, ?_⟩
      · rw [hs]; simp [refOffsets, columnRefPayloads, htp, refOffsetsList]
      · intro p hp
        simp only [columnRefPayloads, htp, if_neg, if_false] at hp
        exact hg p hp

theorem visitList_ok_spec (es : List Expr) : ∀ (v v' : ExprColumnRefVisitor),
    ExprColumnRefVisitor.visitList v es = .ok v' →
    v' = ⟨List.foldl insertOffset v.cols_offset (refOffsetsList es), v.cols_len⟩ ∧
    ∀ p ∈ columnRefPayloadsList es, ∃ x, decode_i64 p = .ok x ∧ intToUsize x < v.cols_len := by
  intro v v' h
  cases es with
  | nil =>
    simp only [ExprColumnRefVisitor.visitList, Except.ok.injEq] at h
    subst h
    simp [refOffsetsList, columnRefPayloadsList]
  | cons e rest =>
    simp only [ExprColumnRefVisitor.visitList] at h
    cases hv : ExprColumnRefVisitor.visit v e with
    | error err => rw [hv] at h; exact absurd h (by simp)
    | ok v2 =>
      rw [hv] at h
      obtain ⟨hshape, hgood⟩ := visit_ok_spec e v v2 hv
      obtain ⟨hshape2, hgood2⟩ := visitList_ok_spec rest v2 v' h
      have hlen2 : v2.cols_len = v.cols_len := by rw [hshape]
      have hoff2 : v2.cols_offset = List.foldl insertOffset v.cols_offset (refOffsets e) := by
        rw [hshape]
      constructor
      · rw [hshape2, hlen2, hoff2]
        simp [refOffsetsList, columnRefPayloadsList, refOffsets, List.foldl_append]
      · intro p hp
        simp only [columnRefPayloadsList, List.mem_append] at hp
        rcases hp with hp | hp
        · exact hgood p hp
        · have := hgood2 p hp
          rwa [hlen2] at this

end




mutual

theorem visit_ok_of_good (e : Expr) : ∀ v : ExprColumnRefVisitor,
    (∀ p ∈ columnRefPayloads e, ∃ x, decode_i64 p = .ok x ∧ intToUsize x < v.cols_len) →
    ∃ v', ExprColumnRefVisitor.visit v e = .ok v' := by
  intro v hgood
  cases e with
  | node tp val children =>
    by_cases htp : tp = .columnRef
    · subst htp
      obtain ⟨x, hdec, hlt⟩ := hgood val (by simp [columnRefPayloads])
      refine ⟨{ v with cols_offset := insertOffset v.cols_offset (intToUsize x) }, ?_⟩
      simp only [ExprColumnRefVisitor.visit, if_pos, hdec]
      rw [if_neg (by omega)]
    · rw [show ExprColumnRefVisitor.visit v (Expr.node tp val children) =
          ExprColumnRefVisitor.visitList v children from by
        simp [ExprColumnRefVisitor.visit, htp]]
      apply visitList_ok_of_good children v
      intro p hp
      exact hgood p (by simp [columnRefPayloads, htp, hp])

theorem visitList_ok_of_good (es : List Expr) : ∀ v : ExprColumnRefVisitor,
    (∀ p ∈ columnRefPayloadsList es, ∃ x, decode_i64 p = .ok x ∧ intToUsize x < v.cols_len) →
    ∃ v', ExprColumnRefVisitor.visitList v es = .ok v' := by
  intro v hgood
  cases es with
  | nil => exact ⟨v, rfl⟩
  | cons e rest =>
    obtain ⟨v2, hv2⟩ := visit_ok_of_good e v
      (fun p hp => hgood p (by simp [columnRefPayloadsList, hp]))
    have hlen2 : v2.cols_len = v.cols_len := by
      rw [(visit_ok_spec e v v2 hv2).1]
    obtain ⟨v3, hv3⟩ := visitList_ok_of_good rest v2
      (by
        intro p hp
        rw [hlen2]
        exact hgood p (by simp [columnRefPayloadsList, hp]))
    refine ⟨v3, ?_⟩
    simp only [ExprColumnRefVisitor.visitList, hv2, hv3]

end

theorem batch_visit_eq_visitList (es : List Expr) :
    ∀ v : ExprColumnRefVisitor,
      ExprColumnRefVisitor.batch_visit v es = ExprColumnRefVisitor.visitList v es := by
  induction es with
  | nil => intro v; rfl
  | cons e rest ih =>
    intro v
    simp only [ExprColumnRefVisitor.batch_visit, ExprColumnRefVisitor.visitList]
    cases ExprColumnRefVisitor.visit v e with
    | error err => rfl
    | ok v2 => exact ih v2




theorem payloadInt_range (p : List Nat) :
    -(2 ^ 63) ≤ payloadInt p ∧ payloadInt p < 2 ^ 63 := toSigned64_range _

theorem visit_isOk_iff_good (v : ExprColumnRefVisitor) (e : Expr) :
    (∃ v', v.visit e = .ok v') ↔
      (∀ p ∈ columnRefPayloads e, ∃ x, decode_i64 p = .ok x ∧ intToUsize x < v.cols_len) := by
  constructor
  · rintro ⟨v', h⟩
    exact (visit_ok_spec e v v' h).2
  · exact visit_ok_of_good e v

theorem visitList_isOk_iff_good (v : ExprColumnRefVisitor) (es : List Expr) :
    (∃ v', v.visitList es = .ok v') ↔
      (∀ p ∈ columnRefPayloadsList es, ∃ x, decode_i64 p = .ok x ∧ intToUsize x < v.cols_len) := by
  constructor
  · rintro ⟨v', h⟩
    exact (visitList_ok_spec es v v' h).2
  · exact visitList_ok_of_good es v

theorem good_iff_inrange (len : Nat) (hlen : len ≤ 2 ^ 63) (p : List Nat) (hp : 8 ≤ p.length) :
    (∃ x, decode_i64 p = .ok x ∧ intToUsize x < len) ↔
      (0 ≤ payloadInt p ∧ payloadInt p < (len : Int)) := by
  constructor
  · rintro ⟨x, hdec, hlt⟩
    have hx : x = payloadInt p := ((decode_i64_ok_iff p x).mp hdec).2
    rw [hx] at hlt
    exact (intToUsize_lt_iff (payloadInt p) len hlen
      (payloadInt_range p).1 (payloadInt_range p).2).mp hlt
  · rintro ⟨h0, h1⟩
    refine ⟨payloadInt p, decode_i64_of_len p hp, ?_⟩
    rw [intToUsize_lt_iff (payloadInt p) len hlen
      (payloadInt_range p).1 (payloadInt_range p).2]
    exact ⟨h0, h1⟩

theorem except_error_iff_not_ok {α β : Type} (r : Except α β) :
    (∃ err, r = .error err) ↔ ¬∃ v, r = .ok v := by
  cases r <;> simp

/-- C4: for every expression tree (and forest) whose ColumnRef leaves carry
well-formed little-endian i64 payloads, `ExprColumnRefVisitor.visit`
(resp. `batch_visit`) fails if and only if some decoded ColumnRef offset is
negative or at least the declared schema length `cols_len`. -/
theorem claim_C4_visit_failure_iff :
    (∀ (v : ExprColumnRefVisitor) (e : Expr),
      (∀ p ∈ columnRefPayloads e, 8 ≤ p.length) → v.cols_len ≤ 2 ^ 63 →
      ((∃ err, v.visit e = .error err) ↔
        ∃ p ∈ columnRefPayloads e,
          payloadInt p < 0 ∨ (v.cols_len : Int) ≤ payloadInt p)) ∧
    (∀ (v : ExprColumnRefVisitor) (es : List Expr),
      (∀ p ∈ columnRefPayloadsList es, 8 ≤ p.length) → v.cols_len ≤ 2 ^ 63 →
      ((∃ err, v.batch_visit es = .error err) ↔
        ∃ p ∈ columnRefPayloadsList es,
          payloadInt p < 0 ∨ (v.cols_len : Int) ≤ payloadInt p)) := by
  constructor
  · intro v e hwf hlen
    rw [except_error_iff_not_ok, visit_isOk_iff_good]
    constructor
    · intro hng
      rcases not_forall.mp hng with ⟨p, hp⟩
      rcases Classical.not_imp.mp hp with ⟨hpm, hnp⟩
      refine ⟨p, hpm, ?_⟩
      have := (good_iff_inrange v.cols_len hlen p (hwf p hpm)).not.mp hnp
      omega
    · rintro ⟨p, hpm, hbad⟩ hall
      have := (good_iff_inrange v.cols_len hlen p (hwf p hpm)).mp (hall p hpm)
      omega
  · intro v es hwf hlen
    rw [batch_visit_eq_visitList, except_error_iff_not_ok, visitList_isOk_iff_good]
    constructor
    · intro hng
      rcases not_forall.mp hng with ⟨p, hp⟩
      rcases Classical.not_imp.mp hp with ⟨hpm, hnp⟩
      refine ⟨p, hpm, ?_⟩
      have := (good_iff_inrange v.cols_len hlen p (hwf p hpm)).not.mp hnp
      omega
    · rintro ⟨p, hpm, hbad⟩ hall
      have := (good_iff_inrange v.cols_len hlen p (hwf p hpm)).mp (hall p hpm)
      omega

theorem claim_C4_witness :
    (∃ err, (ExprColumnRefVisitor.new 3).visit
        (Expr.node .columnRef (le8 (2 ^ 64 - 1)) []) = .error err) ↔
      ∃ p ∈ columnRefPayloads (Expr.node .columnRef (le8 (2 ^ 64 - 1)) []),
        payloadInt p < 0 ∨ ((ExprColumnRefVisitor.new 3).cols_len : Int) ≤ payloadInt p :=
  claim_C4_visit_failure_iff.1 (ExprColumnRefVisitor.new 3) _
    (by intro p hp; simp [columnRefPayloads] at hp; subst hp; simp [le8_length])
    (by norm_num [ExprColumnRefVisitor.new])

/-- C5: after a successful `batch_visit` from a fresh visitor,
`column_offsets()` is duplicate-free, contains exactly the decoded offsets
of all ColumnRef leaves of the forest, and all of them are below the
declared schema length. -/
theorem claim_C5_column_offsets :
    ∀ (cols_len : Nat) (exprs : List Expr) (v' : ExprColumnRefVisitor),
      (ExprColumnRefVisitor.new cols_len).batch_visit exprs = .ok v' →
      v'.column_offsets.Nodup ∧
      (∀ x, x ∈ v'.column_offsets ↔ x ∈ refOffsetsList exprs) ∧
      (∀ x ∈ v'.column_offsets, x < cols_len) := by
  intro cols_len exprs v' h
  rw [batch_visit_eq_visitList] at h
  obtain ⟨hs, hg⟩ := visitList_ok_spec exprs _ v' h
  have hco : v'.column_offsets = List.foldl insertOffset [] (refOffsetsList exprs) := by
    rw [hs]; rfl
  refine ⟨?_, ?_, ?_⟩
  · rw [hco]
    exact nodup_foldl_insertOffset _ [] List.nodup_nil
  · intro x
    rw [hco, mem_foldl_insertOffset]
    simp
  · intro x hx
    rw [hco, mem_foldl_insertOffset] at hx
    rcases hx with hx | hx
    · simp at hx
    · rcases List.mem_map.mp hx with ⟨p, hpm, rfl⟩
      obtain ⟨y, hdec, hlt⟩ := hg p hpm
      have hy : y = payloadInt p := ((decode_i64_ok_iff p y).mp hdec).2
      subst hy
      exact hlt

theorem claim_C5_witness :
    (let exprs := [Expr.node .scalarFunc []
        [Expr.node .columnRef (le8 1) [], Expr.node .columnRef (le8 0) []]];
     let v' : ExprColumnRefVisitor := ⟨[1, 0], 3⟩;
     v'.column_offsets.Nodup ∧
     (∀ x, x ∈ v'.column_offsets ↔ x ∈ refOffsetsList exprs) ∧
     (∀ x ∈ v'.column_offsets, x < 3)) :=
  claim_C5_column_offsets 3 _ _ rfl




theorem getBinaryColsGo_cons (handle : Int) (data : RowColsDict) (col : ColumnInfo)
    (rest : List ColumnInfo) :
    getBinaryColsGo handle data (col :: rest) =
      match colWireSpec handle data col with
      | .error e => .error e
      | .ok value =>
        match getBinaryColsGo handle data rest with
        | .error e => .error e
        | .ok r => .ok (value :: r) := by
  by_cases hpk : col.pk_handle
  · simp only [getBinaryColsGo, hpk, if_pos, colWireSpec, if_true]
  · simp only [getBinaryColsGo, hpk, Bool.false_eq_true, if_false, colWireSpec]
    cases hd : data.get col.column_id with
    | some bs => rfl
    | none => rfl

theorem get_binary_cols_eq_mapM (handle : Int) (data : RowColsDict) (cols : List ColumnInfo) :
    getBinaryColsGo handle data cols = cols.mapM (colWireSpec handle data) := by
  induction cols with
  | nil =>
    simp only [List.mapM_nil]
    rfl
  | cons col rest ih =>
    rw [getBinaryColsGo_cons, List.mapM_cons, ih]
    cases hcw : colWireSpec handle data col <;>
      cases hmm : List.mapM (colWireSpec handle data) rest <;>
        simp [Bind.bind, Except.bind, Pure.pure, Except.pure]

theorem getBinaryGo_cons (handle : Int) (data : RowColsDict) (cols : List ColumnInfo)
    (o : Nat) (rest : List Nat) (col : ColumnInfo) (h : cols.get? o = some col) :
    getBinaryGo handle data cols (o :: rest) =
      match offsetWireSpec handle data col with
      | .error e => some (.error e)
      | .ok value =>
        match getBinaryGo handle data cols rest with
        | none => none
        | some (.error e) => some (.error e)
        | some (.ok tail) => some (.ok (value ++ tail)) := by
  simp only [getBinaryGo, h, offsetWireSpec]

theorem getD_of_get? {α : Type} [Inhabited α] (l : List α) (o : Nat) (h : o < l.length) :
    l.get? o = some (l.getD o default) := by
  rw [List.get?_eq_getElem?, List.getD_eq_getElem?_getD, List.getElem?_eq_getElem h]
  rfl

theorem get_binary_eq_mapM (handle : Int) (data : RowColsDict) (cols : List ColumnInfo) :
    ∀ offsets : List Nat, (∀ o ∈ offsets, o < cols.length) →
      getBinaryGo handle data cols offsets =
        some (Except.map List.flatten
          (offsets.mapM (fun o => offsetWireSpec handle data (cols.getD o default)))) := by
  intro offsets
  induction offsets with
  | nil =>
    intro _
    simp only [List.mapM_nil]
    simp [getBinaryGo, Except.map, Pure.pure, Except.pure]
  | cons o rest ih =>
    intro hb
    have ho : o < cols.length := hb o (by simp)
    rw [getBinaryGo_cons handle data cols o rest _ (getD_of_get? cols o ho),
      List.mapM_cons, ih (fun x hx => hb x (by simp [hx]))]
    cases hcw : offsetWireSpec handle data (cols.getD o default) <;>
      cases hmm : List.mapM (fun x => offsetWireSpec handle data (cols.getD x default)) rest <;>
        simp [Bind.bind, Except.bind, Pure.pure, Except.pure, Except.map, List.flatten_cons]




theorem mapM_except_error {α β : Type} (f : α → Except Error β) :
    ∀ (l : List α) (e : Error), l.mapM f = .error e → ∃ x ∈ l, f x = .error e := by
  intro l
  induction l with
  | nil =>
    intro e h
    rw [List.mapM_nil] at h
    exact absurd h (by simp [Pure.pure, Except.pure])
  | cons a rest ih =>
    intro e h
    rw [List.mapM_cons] at h
    cases hf : f a with
    | error e2 =>
      rw [hf] at h
      simp only [Bind.bind, Except.bind, Except.error.injEq] at h
      subst h
      exact ⟨a, by simp, hf⟩
    | ok b =>
      rw [hf] at h
      simp only [Bind.bind, Except.bind] at h
      cases hm : rest.mapM f with
      | error e2 =>
        rw [hm] at h
        simp only [Except.error.injEq] at h
        subst h
        obtain ⟨x, hx, hfx⟩ := ih e2 hm
        exact ⟨x, by simp [hx], hfx⟩
      | ok r =>
        rw [hm] at h
        exact absurd h (by simp [Pure.pure, Except.pure])

theorem mapM_except_error_of_elem {α β : Type} (f : α → Except Error β) :
    ∀ (l : List α) (x : α), x ∈ l → ∀ e : Error, f x = .error e →
      ∃ e2, l.mapM f = .error e2 := by
  intro l
  induction l with
  | nil => intro x hx; cases hx
  | cons a rest ih =>
    intro x hx e hfx
    rw [List.mapM_cons]
    cases hf : f a with
    | error e2 => exact ⟨e2, by simp [Bind.bind, Except.bind]⟩
    | ok b =>
      rcases List.mem_cons.mp hx with rfl | hx2
      · rw [hf] at hfx; cases hfx
      · obtain ⟨e2, hm⟩ := ih x hx2 e hfx
        refine ⟨e2, ?_⟩
        simp only [Bind.bind, Except.bind, hf]
        rw [hm]

theorem mapM_except_ok_forall2 {α β : Type} (f : α → Except Error β) :
    ∀ (l : List α) (r : List β), l.mapM f = .ok r →
      List.Forall₂ (fun a b => f a = .ok b) l r := by
  intro l
  induction l with
  | nil =>
    intro r h
    rw [List.mapM_nil] at h
    simp only [Pure.pure, Except.pure, Except.ok.injEq] at h
    subst h
    exact List.Forall₂.nil
  | cons a rest ih =>
    intro r h
    rw [List.mapM_cons] at h
    cases hf : f a with
    | error e =>
      rw [hf] at h
      exact absurd h (by simp [Bind.bind, Except.bind])
    | ok b =>
      rw [hf] at h
      simp only [Bind.bind, Except.bind] at h
      cases hm : rest.mapM f with
      | error e =>
        rw [hm] at h
        exact absurd h (by simp)
      | ok r2 =>
        rw [hm] at h
        simp only [Pure.pure, Except.pure, Except.ok.injEq] at h
        subst h
        exact List.Forall₂.cons hf (ih r2 hm)

theorem colWireSpec_error_iff (handle : Int) (data : RowColsDict) (col : ColumnInfo)
    (e : Error) :
    colWireSpec handle data col = .error e ↔
      missingCond data col = true ∧ e = .missingColumn col.column_id handle := by
  simp only [colWireSpec, missingCond]
  by_cases hpk : col.pk_handle
  · simp [hpk]
  · cases hd : data.get col.column_id with
    | some bs => simp [hpk, hd]
    | none =>
      cases hdv : col.default_val with
      | some dv => simp [hpk, hdv]
      | none =>
        by_cases hnn : flagContains col.flag FieldTypeFlag.notNull
        · simp [hpk, hnn, eq_comm]
        · simp [hpk, hnn]

theorem offsetWireSpec_error_iff (handle : Int) (data : RowColsDict) (col : ColumnInfo)
    (e : Error) :
    offsetWireSpec handle data col = .error e ↔
      missingCond data col = true ∧ e = .missingColumn col.column_id handle := by
  simp only [offsetWireSpec, missingCond]
  cases hd : data.get col.column_id with
  | some bs => simp
  | none =>
    by_cases hpk : col.pk_handle
    · simp [hpk]
    · cases hdv : col.default_val with
      | some dv => simp [hpk, hdv]
      | none =>
        by_cases hnn : flagContains col.flag FieldTypeFlag.notNull
        · simp [hpk, hnn, eq_comm]
        · simp [hpk, hnn]




theorem except_map_error_iff {α β γ : Type} (g : α → β) (r : Except γ α) (e : γ) :
    Except.map g r = .error e ↔ r = .error e := by
  cases r <;> simp [Except.map]

/-- C2: `OriginCols.get_binary_cols` returns, per schema column in order, the
wire form given by the PK-handle / stored-bytes / default / NOT_NULL-failure /
encoded-null rules: it equals the per-column rule `colWireSpec` mapped
monadically over the schema (so the first missing NOT_NULL column without
default aborts the call with its MissingColumn error). -/
theorem claim_C2_get_binary_cols : ∀ row : OriginCols,
    row.get_binary_cols = row.cols.mapM (colWireSpec row.handle row.data) := by
  intro row
  exact get_binary_cols_eq_mapM row.handle row.data row.cols

/-- C1 counterexample: on a PK-handle column whose id is also present in the
row dict, `get_binary` copies the stored bytes while the `get_binary_cols`
rules (PK handle first) demand the encoded handle datum, so the claimed
"same rules as get_binary_cols" fails at this input. -/
theorem claim_C1_counterexample :
    cexRow.get_binary [0] = some (.ok [9, 9]) ∧
    cexRow.get_binary_cols = .ok [encode_value [get_pk cexCol cexRow.handle]] ∧
    colWireSpec cexRow.handle cexRow.data cexCol =
      .ok (encode_value [get_pk cexCol cexRow.handle]) ∧
    encode_value [get_pk cexCol cexRow.handle] ≠ [9, 9] := by decide

/-- C1 (amended): for in-range offsets, `get_binary` returns the
concatenation, in requested order, of per-offset wire forms in which presence
in the RowColsDict takes precedence over the PK-handle rule; the remaining
default / NOT_NULL / null rules are as in `get_binary_cols`. -/
theorem claim_C1_get_binary_concat : ∀ (row : OriginCols) (offsets : List Nat),
    (∀ o ∈ offsets, o < row.cols.length) →
    row.get_binary offsets =
      some (Except.map List.flatten
        (offsets.mapM (fun o => offsetWireSpec row.handle row.data (row.cols.getD o default)))) := by
  intro row offsets h
  exact get_binary_eq_mapM row.handle row.data row.cols offsets h

theorem claim_C1_witness :
    (∀ o ∈ ([1, 0] : List Nat),
      o < ([⟨1, true, 0, none⟩, ⟨2, false, 0, none⟩] : List ColumnInfo).length) ∧
    (OriginCols.mk 7 ⟨[(2, [5, 5])]⟩
        [⟨1, true, 0, none⟩, ⟨2, false, 0, none⟩]).get_binary [1, 0] =
      some (Except.map List.flatten (([1, 0] : List Nat).mapM (fun o =>
        offsetWireSpec 7 ⟨[(2, [5, 5])]⟩
          (([⟨1, true, 0, none⟩, ⟨2, false, 0, none⟩] : List ColumnInfo).getD o default)))) :=
  ⟨by decide, claim_C1_get_binary_concat _ [1, 0] (by decide)⟩

/-- C3: when every requested offset is in range, `get_binary` fails exactly
when some requested column is absent, not the PK handle, has no default and is
NOT_NULL; the error carries that column's id and the row handle; likewise
`get_binary_cols` over the full schema. -/
theorem claim_C3_missing_column_iff : ∀ (row : OriginCols) (offsets : List Nat),
    (∀ o ∈ offsets, o < row.cols.length) →
    ((∃ e, row.get_binary offsets = some (.error e)) ↔
      ∃ o ∈ offsets, missingCond row.data (row.cols.getD o default) = true) ∧
    (∀ e, row.get_binary offsets = some (.error e) →
      ∃ o ∈ offsets, missingCond row.data (row.cols.getD o default) = true ∧
        e = .missingColumn (row.cols.getD o default).column_id row.handle) ∧
    ((∃ e, row.get_binary_cols = .error e) ↔
      ∃ col ∈ row.cols, missingCond row.data col = true) ∧
    (∀ e, row.get_binary_cols = .error e →
      ∃ col ∈ row.cols, missingCond row.data col = true ∧
        e = .missingColumn col.column_id row.handle) := by
  intro row offsets h
  have hgb : row.get_binary offsets =
      some (Except.map List.flatten
        (offsets.mapM (fun o => offsetWireSpec row.handle row.data (row.cols.getD o default)))) :=
    get_binary_eq_mapM row.handle row.data row.cols offsets h
  have hgc : row.get_binary_cols = row.cols.mapM (colWireSpec row.handle row.data) :=
    get_binary_cols_eq_mapM row.handle row.data row.cols
  have herr : ∀ e, row.get_binary offsets = some (.error e) ↔
      offsets.mapM (fun o => offsetWireSpec row.handle row.data (row.cols.getD o default)) =
        .error e := by
    intro e
    rw [hgb]
    constructor
    · intro he
      exact (except_map_error_iff _ _ _).mp (Option.some.inj he)
    · intro he
      rw [he]
      rfl
  refine ⟨?_, ?_, ?_, ?_⟩
  · constructor
    · rintro ⟨e, he⟩
      obtain ⟨o, ho, hfo⟩ := mapM_except_error _ offsets e ((herr e).mp he)
      exact ⟨o, ho, ((offsetWireSpec_error_iff _ _ _ _).mp hfo).1⟩
    · rintro ⟨o, ho, hcond⟩
      obtain ⟨e2, hm⟩ := mapM_except_error_of_elem
        (fun x => offsetWireSpec row.handle row.data (row.cols.getD x default)) offsets o ho _
        ((offsetWireSpec_error_iff row.handle row.data (row.cols.getD o default)
          (.missingColumn (row.cols.getD o default).column_id row.handle)).mpr ⟨hcond, rfl⟩)
      exact ⟨e2, (herr e2).mpr hm⟩
  · intro e he
    obtain ⟨o, ho, hfo⟩ := mapM_except_error _ offsets e ((herr e).mp he)
    obtain ⟨hc, hee⟩ := (offsetWireSpec_error_iff _ _ _ _).mp hfo
    exact ⟨o, ho, hc, hee⟩
  · constructor
    · rintro ⟨e, he⟩
      rw [hgc] at he
      obtain ⟨col, hcm, hfc⟩ := mapM_except_error _ row.cols e he
      exact ⟨col, hcm, ((colWireSpec_error_iff _ _ _ _).mp hfc).1⟩
    · rintro ⟨col, hcm, hcond⟩
      obtain ⟨e2, hm⟩ := mapM_except_error_of_elem
        (colWireSpec row.handle row.data) row.cols col hcm _
        ((colWireSpec_error_iff row.handle row.data col
          (.missingColumn col.column_id row.handle)).mpr ⟨hcond, rfl⟩)
      exact ⟨e2, by rw [hgc]; exact hm⟩
  · intro e he
    rw [hgc] at he
    obtain ⟨col, hcm, hfc⟩ := mapM_except_error _ row.cols e he
    obtain ⟨hc, hee⟩ := (colWireSpec_error_iff _ _ _ _).mp hfc
    exact ⟨col, hcm, hc, hee⟩

theorem claim_C3_witness :
    (∀ o ∈ ([0] : List Nat), o < ([⟨1, false, 1, none⟩] : List ColumnInfo).length) ∧
    (((∃ e, (OriginCols.mk 3 ⟨[]⟩ [⟨1, false, 1, none⟩]).get_binary [0] = some (.error e)) ↔
      ∃ o ∈ ([0] : List Nat),
        missingCond ⟨[]⟩ (([⟨1, false, 1, none⟩] : List ColumnInfo).getD o default) = true) ∧
    (∀ e, (OriginCols.mk 3 ⟨[]⟩ [⟨1, false, 1, none⟩]).get_binary [0] = some (.error e) →
      ∃ o ∈ ([0] : List Nat),
        missingCond ⟨[]⟩ (([⟨1, false, 1, none⟩] : List ColumnInfo).getD o default) = true ∧
          e = .missingColumn (([⟨1, false, 1, none⟩] : List ColumnInfo).getD o default).column_id 3) ∧
    ((∃ e, (OriginCols.mk 3 ⟨[]⟩ [⟨1, false, 1, none⟩]).get_binary_cols = .error e) ↔
      ∃ col ∈ ([⟨1, false, 1, none⟩] : List ColumnInfo), missingCond ⟨[]⟩ col = true) ∧
    (∀ e, (OriginCols.mk 3 ⟨[]⟩ [⟨1, false, 1, none⟩]).get_binary_cols = .error e →
      ∃ col ∈ ([⟨1, false, 1, none⟩] : List ColumnInfo), missingCond ⟨[]⟩ col = true ∧
        e = .missingColumn col.column_id 3)) :=
  ⟨by decide, claim_C3_missing_column_iff (OriginCols.mk 3 ⟨[]⟩ [⟨1, false, 1, none⟩]) [0]
    (by decide)⟩

/-- C7: `AggCols.get_binary` emits the flag-off datum encoding of the value
vector followed by the suffix bytes unchanged, and `Row.get_binary` on an Agg
row ignores the output offsets, returning those same bytes for every choice. -/
theorem claim_C7_agg_binary : ∀ a : AggCols,
    a.get_binary = .ok (encode a.value false ++ a.suffix) ∧
    ∀ offsets : List Nat, Row.get_binary (.agg a) offsets = some a.get_binary := by
  intro a
  constructor
  · simp only [AggCols.get_binary]
    by_cases hs : a.suffix.isEmpty
    · rw [List.isEmpty_iff.mp hs]
      simp
    · simp [hs]
  · intro offsets
    rfl




theorem inflateGo_cons (handle : Int) (data : RowColsDict) (cols : List ColumnInfo)
    (ctx : EvalContext) (o : Nat) (rest : List Nat) (res : List Datum) (col : ColumnInfo)
    (h : cols.get? o = some col) :
    inflateGo handle data cols ctx (o :: rest) res =
      match inflateSpecVal handle data ctx col with
      | .error e => some (.error e)
      | .ok value => inflateGo handle data cols ctx rest (res.set o value) := by
  simp only [inflateGo, h]
  by_cases hpk : col.pk_handle
  · simp only [hpk, if_pos, inflateSpecVal, if_true]
  · simp only [hpk, Bool.false_eq_true, if_false, inflateSpecVal]
    cases hd : data.get col.column_id with
    | some bs => rfl
    | none => rfl

theorem getD_replicate_null (n i : Nat) :
    (List.replicate n Datum.null).getD i .null = .null := by
  rw [List.getD_eq_getElem?_getD, List.getElem?_replicate]
  split <;> rfl

theorem inflateGo_spec (handle : Int) (data : RowColsDict) (cols : List ColumnInfo)
    (ctx : EvalContext) : ∀ (offsets : List Nat) (res : List Datum),
    (∀ o ∈ offsets, o < cols.length) → res.length = cols.length →
    (∃ r, inflateGo handle data cols ctx offsets res = some r) ∧
    (∀ res', inflateGo handle data cols ctx offsets res = some (.ok res') →
      res'.length = res.length ∧
      (∀ i, i ∉ offsets → res'.getD i .null = res.getD i .null) ∧
      (∀ o ∈ offsets,
        inflateSpecVal handle data ctx (cols.getD o default) = .ok (res'.getD o .null))) ∧
    (∀ e, inflateGo handle data cols ctx offsets res = some (.error e) →
      ∃ o ∈ offsets, inflateSpecVal handle data ctx (cols.getD o default) = .error e) := by
  intro offsets
  induction offsets with
  | nil =>
    intro res _ _
    refine ⟨⟨.ok res, rfl⟩, ?_, ?_⟩
    · intro res' h
      simp only [inflateGo, Option.some.injEq, Except.ok.injEq] at h
      subst h
      exact ⟨rfl, fun i _ => rfl, fun o ho => absurd ho (List.not_mem_nil o)⟩
    · intro e h
      simp [inflateGo] at h
  | cons o rest ih =>
    intro res hb hlen
    have ho : o < cols.length := hb o (by simp)
    have hcol := getD_of_get? cols o ho
    rw [inflateGo_cons handle data cols ctx o rest res _ hcol]
    cases hv : inflateSpecVal handle data ctx (cols.getD o default) with
    | error e =>
      refine ⟨⟨.error e, rfl⟩, ?_, ?_⟩
      · intro res' h
        simp at h
      · intro e2 h
        simp only [Option.some.injEq, Except.error.injEq] at h
        subst h
        exact ⟨o, by simp, hv⟩
    | ok value =>
      have hlen2 : (res.set o value).length = cols.length := by
        rw [List.length_set]
        exact hlen
      obtain ⟨hex, hok, herr⟩ := ih (res.set o value) (fun x hx => hb x (by simp [hx])) hlen2
      refine ⟨hex, ?_, ?_⟩
      · intro res' h
        obtain ⟨hl, hni, hin⟩ := hok res' h
        refine ⟨by rw [hl, List.length_set], ?_, ?_⟩
        · intro i hi
          have hio : o ≠ i := fun he => hi (by simp [he])
          have hir : i ∉ rest := fun he => hi (by simp [he])
          rw [hni i hir, List.getD_eq_getElem?_getD, List.getD_eq_getElem?_getD,
            List.getElem?_set_ne hio]
        · intro o2 ho2
          rcases List.mem_cons.mp ho2 with rfl | ho2r
          · by_cases hor : o2 ∈ rest
            · exact hin o2 hor
            · have hsv : (res.set o2 value).getD o2 Datum.null = value := by
                rw [List.getD_eq_getElem?_getD,
                  List.getElem?_set_self (show o2 < res.length by rw [hlen]; exact ho)]
                rfl
              rw [hni o2 hor, hsv]
              exact hv
          · exact hin o2 ho2r
      · intro e h
        obtain ⟨o2, ho2, hs⟩ := herr e h
        exact ⟨o2, by simp [ho2], hs⟩




/-- C6: with all listed offsets in range, a successful
`inflate_cols_with_offsets` returns a vector of exactly schema length in
which every unlisted position is null and every listed position holds the
value given by the handle / stored / default / NOT_NULL rules with bytes
routed through the type-coercing column decoder; a failure is the failure of
some listed column under those same rules. -/
theorem claim_C6_inflate_cols : ∀ (row : OriginCols) (ctx : EvalContext) (offsets : List Nat),
    (∀ o ∈ offsets, o < row.cols.length) →
    (∀ res, row.inflate_cols_with_offsets ctx offsets = some (.ok res) →
      res.length = row.cols.length ∧
      (∀ i, i ∉ offsets → res.getD i .null = .null) ∧
      (∀ o ∈ offsets,
        inflateSpecVal row.handle row.data ctx (row.cols.getD o default) =
          .ok (res.getD o .null))) ∧
    (∀ e, row.inflate_cols_with_offsets ctx offsets = some (.error e) →
      ∃ o ∈ offsets,
        inflateSpecVal row.handle row.data ctx (row.cols.getD o default) = .error e) := by
  intro row ctx offsets h
  obtain ⟨hex, hok, herr⟩ := inflateGo_spec row.handle row.data row.cols ctx offsets
    (List.replicate row.cols.length .null) h (by rw [List.length_replicate])
  refine ⟨?_, herr⟩
  intro res hres
  obtain ⟨hl, hni, hin⟩ := hok res hres
  refine ⟨by rw [hl, List.length_replicate], ?_, hin⟩
  intro i hi
  rw [hni i hi, getD_replicate_null]

theorem claim_C6_witness :
    (∀ o ∈ ([0] : List Nat),
      o < ([⟨1, false, 0, none⟩, ⟨2, false, 0, none⟩] : List ColumnInfo).length) ∧
    ((∀ res, (OriginCols.mk 4 ⟨[(1, encode_value [.i64 9])]⟩
        [⟨1, false, 0, none⟩, ⟨2, false, 0, none⟩]).inflate_cols_with_offsets () [0] =
          some (.ok res) →
      res.length = 2 ∧
      (∀ i, i ∉ ([0] : List Nat) → res.getD i .null = .null) ∧
      (∀ o ∈ ([0] : List Nat),
        inflateSpecVal 4 ⟨[(1, encode_value [.i64 9])]⟩ ()
          (([⟨1, false, 0, none⟩, ⟨2, false, 0, none⟩] : List ColumnInfo).getD o default) =
            .ok (res.getD o .null))) ∧
    (∀ e, (OriginCols.mk 4 ⟨[(1, encode_value [.i64 9])]⟩
        [⟨1, false, 0, none⟩, ⟨2, false, 0, none⟩]).inflate_cols_with_offsets () [0] =
          some (.error e) →
      ∃ o ∈ ([0] : List Nat),
        inflateSpecVal 4 ⟨[(1, encode_value [.i64 9])]⟩ ()
          (([⟨1, false, 0, none⟩, ⟨2, false, 0, none⟩] : List ColumnInfo).getD o default) =
            .error e)) :=
  ⟨by decide, claim_C6_inflate_cols
    (OriginCols.mk 4 ⟨[(1, encode_value [.i64 9])]⟩
      [⟨1, false, 0, none⟩, ⟨2, false, 0, none⟩]) () [0] (by decide)⟩

/-- C9: when every supplied offset is below the schema length, `get_binary`
and `inflate_cols_with_offsets` are total (the unchecked schema indexing is
unreachable and no panic occurs); an offset at or beyond the schema length
reached first makes either function panic (modelled as `none`) rather than
return an error. -/
theorem claim_C9_offset_precondition : ∀ (row : OriginCols) (ctx : EvalContext),
    (∀ offsets : List Nat, (∀ o ∈ offsets, o < row.cols.length) →
      (∃ r, row.get_binary offsets = some r) ∧
      (∃ r, row.inflate_cols_with_offsets ctx offsets = some r)) ∧
    (∀ (k : Nat) (rest : List Nat), row.cols.length ≤ k →
      row.get_binary (k :: rest) = none ∧
      row.inflate_cols_with_offsets ctx (k :: rest) = none) := by
  intro row ctx
  constructor
  · intro offsets h
    constructor
    · exact ⟨_, get_binary_eq_mapM row.handle row.data row.cols offsets h⟩
    · exact (inflateGo_spec row.handle row.data row.cols ctx offsets
        (List.replicate row.cols.length .null) h (by rw [List.length_replicate])).1
  · intro k rest hk
    have hget : row.cols[k]? = none := List.getElem?_eq_none hk
    have hget2 : row.cols.get? k = none := by
      rw [List.get?_eq_getElem?]
      exact hget
    constructor
    · simp [OriginCols.get_binary, getBinaryGo, hget, hget2]
    · simp [OriginCols.inflate_cols_with_offsets, inflateGo, hget, hget2]

theorem claim_C9_witness :
    ((∃ r, (OriginCols.mk 1 ⟨[]⟩ [⟨1, false, 0, none⟩]).get_binary [0] = some r) ∧
     (∃ r, (OriginCols.mk 1 ⟨[]⟩ [⟨1, false, 0, none⟩]).inflate_cols_with_offsets () [0] =
        some r)) ∧
    ((OriginCols.mk 1 ⟨[]⟩ [⟨1, false, 0, none⟩]).get_binary [5] = none ∧
     (OriginCols.mk 1 ⟨[]⟩ [⟨1, false, 0, none⟩]).inflate_cols_with_offsets () [5] = none) :=
  ⟨(claim_C9_offset_precondition (OriginCols.mk 1 ⟨[]⟩ [⟨1, false, 0, none⟩]) ()).1 [0]
      (by decide),
   (claim_C9_offset_precondition (OriginCols.mk 1 ⟨[]⟩ [⟨1, false, 0, none⟩]) ()).2 5 []
      (by decide)⟩




/-- C10: in `get_binary_cols`, `get_binary` and `inflate_cols_with_offsets`,
a non-PK column absent from the dict that has a default value yields that
default (through the column decoder for inflation) with no hypothesis on its
NOT_NULL flag; the MissingColumn error arises only when the absent NOT_NULL
column has no default. -/
theorem claim_C10_default_over_notnull :
    ∀ (row : OriginCols) (ctx : EvalContext) (o : Nat), o < row.cols.length →
    (row.cols.getD o default).pk_handle = false →
    row.data.get (row.cols.getD o default).column_id = none →
    ((∀ dv, (row.cols.getD o default).default_val = some dv →
      (∀ res, row.get_binary_cols = .ok res → res.getD o [] = dv) ∧
      row.get_binary [o] = some (.ok dv) ∧
      row.inflate_cols_with_offsets ctx [o] =
        some (Except.map
          (fun d => (List.replicate row.cols.length Datum.null).set o d)
          (decode_col_value dv ctx (row.cols.getD o default)))) ∧
    ((row.cols.getD o default).default_val = none →
     flagContains (row.cols.getD o default).flag FieldTypeFlag.notNull = true →
      (∃ e, row.get_binary_cols = .error e) ∧
      row.get_binary [o] =
        some (.error (.missingColumn (row.cols.getD o default).column_id row.handle)) ∧
      row.inflate_cols_with_offsets ctx [o] =
        some (.error (.missingColumn (row.cols.getD o default).column_id row.handle)))) := by
  intro row ctx o ho hpk hd
  constructor
  · intro dv hdv
    have hcw : colWireSpec row.handle row.data (row.cols.getD o default) = .ok dv := by
      unfold colWireSpec
      rw [hpk, hd, hdv]
      rfl
    have how : offsetWireSpec row.handle row.data (row.cols.getD o default) = .ok dv := by
      unfold offsetWireSpec
      rw [hd, hpk, hdv]
      rfl
    refine ⟨?_, ?_, ?_⟩
    · intro res hres
      have hmapm : row.cols.mapM (colWireSpec row.handle row.data) = .ok res := by
        rw [← get_binary_cols_eq_mapM]
        exact hres
      have hf2 := mapM_except_ok_forall2 _ row.cols res hmapm
      rw [List.forall₂_iff_get] at hf2
      obtain ⟨hlen, hget⟩ := hf2
      have h2 : o < res.length := by omega
      have hidx := hget o ho h2
      have hcg : row.cols.get ⟨o, ho⟩ = row.cols.getD o default := by
        rw [List.getD_eq_getElem?_getD, List.getElem?_eq_getElem ho]
        rfl
      have hrg : res.get ⟨o, h2⟩ = res.getD o [] := by
        rw [List.getD_eq_getElem?_getD, List.getElem?_eq_getElem h2]
        rfl
      rw [hcg, hcw] at hidx
      injection hidx with h3
      rw [hrg] at h3
      exact h3.symm
    · have h1 := getBinaryGo_cons row.handle row.data row.cols o [] _
        (getD_of_get? row.cols o ho)
      rw [how] at h1
      have h2 : row.get_binary [o] = some (.ok (dv ++ [])) := h1
      simpa using h2
    · have hiv : inflateSpecVal row.handle row.data ctx (row.cols.getD o default) =
          decode_col_value dv ctx (row.cols.getD o default) := by
        unfold inflateSpecVal
        rw [hpk, hd, hdv]
        rfl
      have h1 := inflateGo_cons row.handle row.data row.cols ctx o []
        (List.replicate row.cols.length .null) _ (getD_of_get? row.cols o ho)
      rw [hiv] at h1
      cases hdec : decode_col_value dv ctx (row.cols.getD o default) with
      | error e =>
        rw [hdec] at h1
        exact h1
      | ok d =>
        rw [hdec] at h1
        exact h1
  · intro hdv hnn
    have hcond : missingCond row.data (row.cols.getD o default) = true := by
      unfold missingCond
      rw [hpk, hd, hdv, hnn]
      rfl
    have hmem : row.cols.getD o default ∈ row.cols := by
      rw [List.getD_eq_getElem?_getD, List.getElem?_eq_getElem ho]
      exact List.get_mem row.cols o ho
    refine ⟨?_, ?_, ?_⟩
    · obtain ⟨e2, hm⟩ := mapM_except_error_of_elem (colWireSpec row.handle row.data)
        row.cols _ hmem _ ((colWireSpec_error_iff row.handle row.data _
          (.missingColumn (row.cols.getD o default).column_id row.handle)).mpr ⟨hcond, rfl⟩)
      refine ⟨e2, ?_⟩
      rw [show row.get_binary_cols = row.cols.mapM (colWireSpec row.handle row.data) from
        get_binary_cols_eq_mapM row.handle row.data row.cols]
      exact hm
    · have how : offsetWireSpec row.handle row.data (row.cols.getD o default) =
          .error (.missingColumn (row.cols.getD o default).column_id row.handle) :=
        (offsetWireSpec_error_iff row.handle row.data _ _).mpr ⟨hcond, rfl⟩
      have h1 := getBinaryGo_cons row.handle row.data row.cols o [] _
        (getD_of_get? row.cols o ho)
      rw [how] at h1
      exact h1
    · have hiv : inflateSpecVal row.handle row.data ctx (row.cols.getD o default) =
          .error (.missingColumn (row.cols.getD o default).column_id row.handle) := by
        unfold inflateSpecVal
        rw [hpk, hd, hdv, hnn]
        rfl
      have h1 := inflateGo_cons row.handle row.data row.cols ctx o []
        (List.replicate row.cols.length .null) _ (getD_of_get? row.cols o ho)
      rw [hiv] at h1
      exact h1

theorem claim_C10_witness :
    (0 < ([⟨1, false, 1, some (encode_value [.i64 42])⟩] : List ColumnInfo).length) ∧
    (([⟨1, false, 1, some (encode_value [.i64 42])⟩] : List ColumnInfo).getD 0
        default).pk_handle = false ∧
    RowColsDict.get ⟨[]⟩ (([⟨1, false, 1, some (encode_value [.i64 42])⟩] :
        List ColumnInfo).getD 0 default).column_id = none ∧
    (OriginCols.mk 2 ⟨[]⟩
        [⟨1, false, 1, some (encode_value [.i64 42])⟩]).get_binary [0] =
      some (.ok (encode_value [.i64 42])) :=
  ⟨by decide, by decide, by decide,
   (((claim_C10_default_over_notnull
      (OriginCols.mk 2 ⟨[]⟩ [⟨1, false, 1, some (encode_value [.i64 42])⟩]) () 0
      (by decide) (by decide) (by decide)).1 (encode_value [.i64 42]) (by decide)).2).1⟩




theorem mapM_ok_of_all {α β : Type} (f : α → Except Error β) (g : α → β) :
    ∀ l : List α, (∀ x ∈ l, f x = .ok (g x)) → l.mapM f = .ok (l.map g) := by
  intro l
  induction l with
  | nil => intro _; rfl
  | cons a rest ih =>
    intro h
    rw [List.mapM_cons, h a (by simp), ih (fun x hx => h x (by simp [hx]))]
    rfl

theorem flatten_map_encode_single {α : Type} (g : α → Datum) (l : List α) :
    List.flatten (l.map (fun i => encode_value [g i])) = encode (l.map g) false := by
  induction l with
  | nil => rfl
  | cons a rest ih =>
    simp only [List.map_cons, List.flatten_cons, ih, encode_cons]
    have h1 : encode_value [g a] = encodeDatum false (g a) ++ [] := rfl
    rw [h1]
    simp

/-- C8: a row whose stored bytes are the datum encodings of its datums, whose
PK-handle datum agrees with the handle, whose default values are valid datum
encodings, and which triggers no MissingColumn error, round-trips: decoding
the bytes of `get_binary` over offsets `0..|S|` reproduces the row's datums
up to substituting defaults (or null) for columns absent from the dict. -/
theorem claim_C8_roundtrip :
    ∀ (row : OriginCols) (datums : List Datum),
    datums.length = row.cols.length →
    (-(2 ^ 63) ≤ row.handle ∧ row.handle < 2 ^ 63) →
    (∀ d ∈ datums, datumWF d = true) →
    (∀ i, i < row.cols.length →
      row.data.get (row.cols.getD i default).column_id =
        some (encode_value [datums.getD i .null]) ∨
      row.data.get (row.cols.getD i default).column_id = none) →
    (∀ i, i < row.cols.length → (row.cols.getD i default).pk_handle = true →
      datums.getD i .null = get_pk (row.cols.getD i default) row.handle) →
    (∀ i, i < row.cols.length → ∀ dv, (row.cols.getD i default).default_val = some dv →
      ∃ d, datumWF d = true ∧ dv = encode_value [d]) →
    (∀ i, i < row.cols.length → missingCond row.data (row.cols.getD i default) = false) →
    ∃ bs, row.get_binary (List.range row.cols.length) = some (.ok bs) ∧
      decode_values bs = some ((List.range row.cols.length).map (substAt row datums)) := by
  intro row datums hlen hh hwf hstored hpk hdef hnomiss
  have key : ∀ i, i < row.cols.length →
      offsetWireSpec row.handle row.data (row.cols.getD i default) =
        .ok (encode_value [substAt row datums i]) ∧
      datumWF (substAt row datums i) = true := by
    intro i hi
    have hdm : ∀ h2 : i < datums.length, datumWF (datums.getD i .null) = true := by
      intro h2
      have : datums.getD i .null ∈ datums := by
        rw [List.getD_eq_getElem?_getD, List.getElem?_eq_getElem h2]
        exact List.get_mem datums i h2
      exact hwf _ this
    rcases hstored i hi with hg | hg
    · have hsub : substAt row datums i = datums.getD i .null := by
        simp only [substAt, hg]
      constructor
      · unfold offsetWireSpec
        rw [hg, hsub]
      · rw [hsub]
        exact hdm (by omega)
    · by_cases hp : (row.cols.getD i default).pk_handle
      · have hda : datums.getD i .null = get_pk (row.cols.getD i default) row.handle :=
          hpk i hi hp
        have hsub : substAt row datums i = datums.getD i .null := by
          simp only [substAt, hg, hp, if_true]
        constructor
        · unfold offsetWireSpec
          rw [hg, hp, hsub, hda]
          rfl
        · rw [hsub]
          exact hdm (by omega)
      · cases hdv : (row.cols.getD i default).default_val with
        | some dv =>
          obtain ⟨d, hdwf, hdv2⟩ := hdef i hi dv hdv
          have hdec : decodeDatum dv = some (d, []) := by
            rw [hdv2]
            have henc : encode_value [d] = encodeDatum false d ++ [] := rfl
            rw [henc]
            exact decodeDatum_encode d [] hdwf
          have hsub : substAt row datums i = d := by
            simp only [substAt, hg, hp, Bool.false_eq_true, if_false, hdv, hdec]
          constructor
          · unfold offsetWireSpec
            rw [hg]
            simp only [hp, Bool.false_eq_true, if_false]
            rw [hdv, hsub, hdv2]
          · rw [hsub]
            exact hdwf
        | none =>
          have hnn : flagContains (row.cols.getD i default).flag FieldTypeFlag.notNull = false := by
            have hm := hnomiss i hi
            unfold missingCond at hm
            rw [hg, hdv] at hm
            simp only [hp] at hm
            simpa using hm
          have hsub : substAt row datums i = .null := by
            simp only [substAt, hg, hp, Bool.false_eq_true, if_false, hdv]
          constructor
          · unfold offsetWireSpec
            rw [hg]
            simp only [hp, Bool.false_eq_true, if_false]
            rw [hdv, hnn, hsub]
            rfl
          · rw [hsub]
            rfl
  have hbounds : ∀ o ∈ List.range row.cols.length, o < row.cols.length := by
    intro o hoo
    exact List.mem_range.mp hoo
  have hmapm : (List.range row.cols.length).mapM
      (fun o => offsetWireSpec row.handle row.data (row.cols.getD o default)) =
      .ok ((List.range row.cols.length).map (fun i => encode_value [substAt row datums i])) :=
    mapM_ok_of_all _ _ _ (fun x hx => (key x (List.mem_range.mp hx)).1)
  have hflat := flatten_map_encode_single (substAt row datums) (List.range row.cols.length)
  refine ⟨encode ((List.range row.cols.length).map (substAt row datums)) false, ?_, ?_⟩
  · show getBinaryGo row.handle row.data row.cols (List.range row.cols.length) = _
    rw [get_binary_eq_mapM row.handle row.data row.cols _ hbounds, hmapm]
    simp only [Except.map]
    rw [hflat]
  · apply decode_values_encode
    intro d hd
    rcases List.mem_map.mp hd with ⟨i, hi, rfl⟩
    exact (key i (List.mem_range.mp hi)).2


theorem claim_C8_witness :
    c8datums.length = c8row.cols.length ∧
    ∃ bs, c8row.get_binary (List.range c8row.cols.length) = some (.ok bs) ∧
      decode_values bs =
        some ((List.range c8row.cols.length).map (substAt c8row c8datums)) :=
  ⟨by decide, claim_C8_roundtrip c8row c8datums (by decide) (by decide) (by decide)
    (by decide) (by decide)
    (by
      intro i hi dv hdv
      have hi2 : i < 2 := by simpa [c8row, c8cols] using hi
      interval_cases i <;> simp [c8row, c8cols] at hdv)
    (by decide)⟩


end CopDag
